import Mathlib

/-!
# Verification of strax pulse processing (src/strax/pulse_processing.py)

Shallow embedding of the four operations `baseline`, `integrate`,
`record_links` and `find_hits` over fixed-width detector records, together
with proofs of the specification claims.

Modelling conventions:
* numpy structured arrays become `List Record`; in-place mutation becomes a
  function returning the updated list.
* machine integers (`time`, `dt`, samples, indices) are modelled as `ℤ`/`ℕ`;
  the `np.int16` per-channel baseline table of `baseline` is modelled
  explicitly with truncation toward zero plus 16-bit wrap-around, because the
  stored values are read back and are semantically visible.
* the floating-point `baseline` field and `.mean()` are modelled over `ℚ`.
* fallible operations (`record_links`, whose `records['channel'].max()`
  raises on an empty array and whose `assert` can fail) return `Option`.
-/

/-- Truncation toward zero of a rational, the semantics of python `int(...)`
and of a C-style float→int cast. -/
def truncQ (q : ℚ) : ℤ := q.num.sign * ((q.num.natAbs / q.den : ℕ) : ℤ)

/-- Wrap an integer into the `np.int16` range `[-32768, 32768)`, the effect of
storing into the `int16` per-channel baseline table. -/
def wrap16 (z : ℤ) : ℤ := (z + 32768).emod 65536 - 32768

/-- `numpy` arithmetic mean of a list of integer samples (exact, over `ℚ`). -/
def meanQ (l : List ℤ) : ℚ := (l.sum : ℚ) / (l.length : ℚ)

/-- Length of the numpy slice `a[:stop]` of an array of length `n`
(a negative `stop` counts from the end, and the result is clamped to
`[0, n]`). -/
def npSliceLen (n : ℕ) (stop : ℤ) : ℕ :=
  (max 0 (min (n : ℤ) (if stop < 0 then (n : ℤ) + stop else stop))).toNat

/-- A record: one fixed-width fragment of a pulse, per the `record_dtype`
layout described in the spec (§3, §6). -/
structure Record where
  channel : ℕ
  time : ℤ
  dt : ℤ
  record_i : ℕ
  pulse_length : ℕ
  baseline : ℚ
  area : ℤ
  data : List ℤ
deriving Repr, DecidableEq

/-- Default record, used as the `List.getD` default. -/
def dfltRec : Record :=
  { channel := 0, time := 0, dt := 0, record_i := 0, pulse_length := 0,
    baseline := 0, area := 0, data := [] }

/-- A hit: an interval above threshold found in one record (`hit_dtype`). -/
structure Hit where
  left : ℤ
  right : ℤ
  time : ℤ
  length : ℤ
  dt : ℤ
  channel : ℕ
  record_i : ℕ
deriving Repr, DecidableEq

/-- `samples_per_record`, read as `len(records[0]['data'])` in the source. -/
def spr0 (records : List Record) : ℕ := (records.headD dfltRec).data.length

/-- Sentinel for "no previous/next record" in `record_links`. -/
def NOT_APPLICABLE : ℤ := -1

/-! ## baseline -/

/-- The per-channel baseline table update performed while scanning one record:
on a first record of a pulse (`record_i == 0`) the source executes
`bl = last_bl_in[d.channel] = d.data[:baseline_samples].mean()`, which stores
the mean into the `int16` table (truncation toward zero + 16-bit wrap);
continuation records do not write the table. -/
def blUpd (bs : ℕ) (table : List ℤ) (d : Record) : List ℤ :=
  if d.record_i = 0 then
    table.set d.channel (wrap16 (truncQ (meanQ (d.data.take bs))))
  else table

/-- The in-place update of one record performed by `baseline`: pick `bl`
(the raw mean for a first record, the stored `int16` table value for a
continuation record), rewrite the first
`min(samples_per_record, pulse_length - record_i * samples_per_record)`
samples to `int(bl) - sample`, and store `bl` in the `baseline` field. -/
def blOne (spr bs : ℕ) (table : List ℤ) (d : Record) : Record :=
  let bl : ℚ :=
    if d.record_i = 0 then meanQ (d.data.take bs)
    else ((table.getD d.channel 0 : ℤ) : ℚ)
  let last : ℕ :=
    npSliceLen d.data.length
      (min (spr : ℤ) ((d.pulse_length : ℤ) - (d.record_i : ℤ) * (spr : ℤ)))
  { d with
    baseline := bl,
    data := (d.data.take last).map (fun s => truncQ bl - s) ++ d.data.drop last }

/-- The scan loop of `baseline`: process records in input order, threading the
per-channel `int16` baseline table `last_bl_in`. -/
def baselineGo (spr bs : ℕ) (table : List ℤ) : List Record → List Record
  | [] => []
  | d :: rest => blOne spr bs table d :: baselineGo spr bs (blUpd bs table d) rest

/-- `baseline(records, baseline_samples)` from the source: no-op on empty
input; otherwise allocate the zero-initialized `int16` table of size
`records['channel'].max() + 1` and scan. -/
def baseline (records : List Record) (bs : ℕ) : List Record :=
  match records with
  | [] => []
  | r0 :: _ =>
      baselineGo r0.data.length bs
        (List.replicate ((records.map Record.channel).foldr max 0 + 1) 0) records

/-- The baseline table after scanning a list of records, starting from
`table`; used to characterize intermediate states of `baselineGo`. -/
def blTableGo (bs : ℕ) (table : List ℤ) : List Record → List ℤ
  | [] => table
  | d :: rest => blTableGo bs (blUpd bs table d) rest

/-! ## integrate -/

/-- `integrate(records)`: set each record's `area` to the sum of its data. -/
def integrate (records : List Record) : List Record :=
  records.map (fun r => { r with area := r.data.sum })

/-! ## record_links -/

/-- The scan loop of `record_links`: `i` is the index of the next record,
`prev`/`next` the arrays under construction, `seen` the per-channel
`last_record_seen` table.  A continuation record whose channel has
`last_record_seen == NOT_APPLICABLE` trips the source's `assert`, modelled as
`none`. -/
def linksGo : List Record → ℕ → List ℤ → List ℤ → List ℤ →
    Option (List ℤ × List ℤ)
  | [], _, prev, next, _ => some (prev, next)
  | r :: rest, i, prev, next, seen =>
    if r.record_i = 0 then
      linksGo rest (i + 1) (prev.set i NOT_APPLICABLE) next
        (seen.set r.channel (i : ℤ))
    else
      let last_i := seen.getD r.channel NOT_APPLICABLE
      if last_i = NOT_APPLICABLE then none
      else
        linksGo rest (i + 1) (prev.set i last_i)
          (next.set last_i.toNat (i : ℤ)) (seen.set r.channel (i : ℤ))

/-- `record_links(records)`.  On an empty array the source's
`records['channel'].max()` raises (zero-size reduction), modelled as `none`;
otherwise both output arrays and the `last_record_seen` table start filled
with `NOT_APPLICABLE`. -/
def record_links (records : List Record) : Option (List ℤ × List ℤ) :=
  match records with
  | [] => none
  | _ =>
      linksGo records 0
        (List.replicate records.length NOT_APPLICABLE)
        (List.replicate records.length NOT_APPLICABLE)
        (List.replicate ((records.map Record.channel).foldr max 0 + 1)
          NOT_APPLICABLE)

/-! ## find_hits -/

/-- The inner sample loop of `find_hits` over one record's data, carrying the
absolute sample index `i`, `in_interval` and `hit_start` (initialized to `-1`
in the source, hence `ℤ`).  Emitted pairs are `(hit_start, hit_end)`.  The
source's dead disjunct `i == samples_per_record` is kept verbatim. -/
def scanGo (spr : ℕ) (t : ℤ) : List ℤ → ℕ → Bool → ℤ → List (ℤ × ℤ)
  | [], _, _, _ => []
  | s :: rest, i, inI, hs =>
    let above : Bool := decide (t < s)
    let inI1 : Bool := if !inI && above then true else inI
    let hs1 : ℤ := if !inI && above then (i : ℤ) else hs
    if inI1 && (!above || decide (i = spr)) then
      (hs1, (i : ℤ)) :: scanGo spr t rest (i + 1) false hs1
    else
      scanGo spr t rest (i + 1) inI1 hs1

/-- Build the hit entity written into the result buffer for a closed run
`(left, right)` found in record `r` at positional index `ri`. -/
def mkHit (r : Record) (ri : ℕ) (lr : ℤ × ℤ) : Hit :=
  { left := lr.1, right := lr.2,
    time := r.time + lr.1 * r.dt,
    length := lr.2 - lr.1 + 1,
    dt := r.dt, channel := r.channel, record_i := ri }

/-- All hits found in one record (positional index `ri`). -/
def recordHits (spr : ℕ) (t : ℤ) (ri : ℕ) (r : Record) : List Hit :=
  (scanGo spr t r.data 0 false (-1)).map (mkHit r ri)

/-- The outer record loop of `find_hits`, carrying the positional index. -/
def findHitsGo (spr : ℕ) (t : ℤ) : ℕ → List Record → List Hit
  | _, [] => []
  | ri, r :: rest => recordHits spr t ri r ++ findHitsGo spr t (ri + 1) rest

/-- The full ordered sequence of hits produced by one `find_hits` call
(the concatenation of everything written to result buffers). -/
def findHitsAll (records : List Record) (t : ℤ) : List Hit :=
  match records with
  | [] => []
  | r0 :: _ => findHitsGo r0.data.length t 0 records

/-- The chunk delivery loop: hits are appended to a buffer of capacity `cap`;
when the buffer fills it is flushed and reset (`yield offset; offset = 0`),
and after the scan the remaining partial buffer is flushed (`yield offset`),
possibly empty. -/
def chunkLoop (cap : ℕ) : List Hit → List Hit → List (List Hit)
  | buf, [] => [buf]
  | buf, h :: rest =>
    let buf1 := buf ++ [h]
    if buf1.length = cap then buf1 :: chunkLoop cap [] rest
    else chunkLoop cap buf1 rest

/-- `find_hits(records, threshold)` as seen by the consumer: the sequence of
flushed chunks.  The in-source generator yields buffer fill counts; the
conversion of those yields into materialized chunks lives in
`utils.growing_result`, which is not under src/.
Modelled from the spec: `utils.growing_result` delivers, for each `yield`,
the first `offset` entries of the fixed-capacity result buffer as one chunk
("when the buffer fills, the chunk is flushed ... and the buffer position
resets to zero; any remaining partial chunk is flushed once scanning
completes", spec §4.4).  On empty input the generator returns before any
`yield`, so there are no chunks at all. -/
def find_hits (records : List Record) (t : ℤ) (cap : ℕ) : List (List Hit) :=
  match records with
  | [] => []
  | _ => chunkLoop cap [] (findHitsAll records t)

/-! ## Invariants and well-formedness predicates -/

/-- The index of the nearest earlier record on the same channel as record
`i`, if any. -/
def prevShare (records : List Record) (i : ℕ) : Option ℕ :=
  ((List.range i).filter
    (fun j => (records.getD j dfltRec).channel ==
      (records.getD i dfltRec).channel)).getLast?

/-- The ordering invariant of spec §3: per channel, records of one pulse are
contiguous and in increasing `record_i`; operationally, every continuation
record is immediately preceded (among records of its channel) by the record
with `record_i` one smaller. -/
def orderedB (records : List Record) : Bool :=
  (List.range records.length).all fun i =>
    ((records.getD i dfltRec).record_i == 0) ||
      match prevShare records i with
      | some j =>
          (records.getD j dfltRec).record_i + 1 ==
            (records.getD i dfltRec).record_i
      | none => false

/-- `j` is the position of the first record (`record_i == 0`) of the pulse
that record `i` belongs to: same channel, and no later pulse start on that
channel up to `i`. -/
def IsPulseHead (records : List Record) (j i : ℕ) : Prop :=
  j ≤ i ∧
  (records.getD j dfltRec).channel = (records.getD i dfltRec).channel ∧
  (records.getD j dfltRec).record_i = 0 ∧
  ∀ k, k ≤ i → j < k →
    (records.getD k dfltRec).channel = (records.getD i dfltRec).channel →
    (records.getD k dfltRec).record_i ≠ 0

instance (records : List Record) (j i : ℕ) :
    Decidable (IsPulseHead records j i) := by
  unfold IsPulseHead; infer_instance

/-- Geometric well-formedness (spec §3): every record's data has length
`samples_per_record`, and every record holds at least one valid sample
(`record_i * samples_per_record < pulse_length`). -/
def WFB (records : List Record) : Bool :=
  records.all fun r =>
    (r.data.length == spr0 records) &&
      decide (r.record_i * spr0 records < r.pulse_length)

/-! ## List helper lemmas -/

theorem getD_set {α : Type _} :
    ∀ (l : List α) (i k : ℕ) (v d : α),
      (l.set i v).getD k d = if i = k ∧ i < l.length then v else l.getD k d := by
  intro l
  induction l with
  | nil => intro i k v d; simp
  | cons a tl ih =>
    intro i k v d
    cases i with
    | zero =>
      cases k with
      | zero => simp
      | succ k => simp
    | succ i =>
      cases k with
      | zero => simp
      | succ k =>
        simp only [List.set, List.getD_cons_succ, List.length_cons]
        rw [ih]
        have hiff : (i = k ∧ i < tl.length) ↔
            (i + 1 = k + 1 ∧ i + 1 < tl.length + 1) := by omega
        rw [if_congr hiff rfl rfl]

theorem getD_replicate {α : Type _} :
    ∀ (n k : ℕ) (v : α), (List.replicate n v).getD k v = v := by
  intro n
  induction n with
  | zero => intro k v; simp
  | succ n ih =>
    intro k v
    cases k with
    | zero => simp [List.replicate]
    | succ k => simp only [List.replicate, List.getD_cons_succ]; exact ih k v

theorem getD_take {α : Type _} :
    ∀ (l : List α) (i j : ℕ) (d : α), j < i →
      (l.take i).getD j d = l.getD j d := by
  intro l
  induction l with
  | nil => intro i j d _; simp
  | cons a tl ih =>
    intro i j d hj
    cases i with
    | zero => omega
    | succ i =>
      cases j with
      | zero => simp
      | succ j =>
        simp only [List.take, List.getD_cons_succ]
        exact ih i j d (by omega)

theorem getD_mem {α : Type _} :
    ∀ (l : List α) (i : ℕ) (d : α), i < l.length → l.getD i d ∈ l := by
  intro l
  induction l with
  | nil => intro i d h; simp at h
  | cons a tl ih =>
    intro i d h
    cases i with
    | zero => simp
    | succ i =>
      simp only [List.getD_cons_succ]
      exact List.mem_cons_of_mem a (ih i d (by simpa using h))

theorem le_foldr_max :
    ∀ (l : List ℕ) (x : ℕ), x ∈ l → x ≤ l.foldr max 0 := by
  intro l
  induction l with
  | nil => intro x h; simp at h
  | cons a tl ih =>
    intro x h
    rcases List.mem_cons.mp h with h | h
    · subst h; exact Nat.le_max_left _ _
    · exact le_trans (ih x h) (Nat.le_max_right _ _)

/-- Reading the array produced by the slice-assignment
`a[:k] = f(a[:k])` (modelled as `(a.take k).map f ++ a.drop k`). -/
theorem getD_take_map_append :
    ∀ (l : List ℤ) (f : ℤ → ℤ) (k m : ℕ), k ≤ l.length →
      (((l.take k).map f) ++ l.drop k).getD m 0 =
        if m < k then f (l.getD m 0) else l.getD m 0 := by
  intro l
  induction l with
  | nil =>
    intro f k m hk
    have hk0 : k = 0 := by simpa using hk
    subst hk0
    simp
  | cons a tl ih =>
    intro f k m hk
    cases k with
    | zero => simp
    | succ k =>
      cases m with
      | zero => simp
      | succ m =>
        simp only [List.take, List.map, List.drop, List.cons_append,
          List.getD_cons_succ]
        rw [ih f k m (by simpa using hk)]
        have hiff : (m < k) ↔ (m + 1 < k + 1) := by omega
        rw [if_congr hiff rfl rfl]

theorem baselineGo_length (spr bs : ℕ) :
    ∀ (recs : List Record) (table : List ℤ),
      (baselineGo spr bs table recs).length = recs.length := by
  intro recs
  induction recs with
  | nil => intro table; simp [baselineGo]
  | cons d rest ih => intro table; simp [baselineGo, ih]

theorem blTableGo_length (bs : ℕ) :
    ∀ (recs : List Record) (table : List ℤ),
      (blTableGo bs table recs).length = table.length := by
  intro recs
  induction recs with
  | nil => intro table; simp [blTableGo]
  | cons d rest ih =>
    intro table
    simp only [blTableGo]
    rw [ih]
    unfold blUpd
    split <;> simp

/-- The record written at position `i` by the `baseline` scan is determined by
the table state after the first `i` records. -/
theorem baselineGo_getD (spr bs : ℕ) :
    ∀ (recs : List Record) (table : List ℤ) (i : ℕ), i < recs.length →
      (baselineGo spr bs table recs).getD i dfltRec =
        blOne spr bs (blTableGo bs table (recs.take i)) (recs.getD i dfltRec) := by
  intro recs
  induction recs with
  | nil => intro table i h; simp at h
  | cons d rest ih =>
    intro table i h
    cases i with
    | zero => simp [baselineGo, blTableGo]
    | succ i =>
      simp only [baselineGo, List.getD_cons_succ, List.take, blTableGo]
      exact ih (blUpd bs table d) i (by simpa using h)

/-- If no record in `l` starts a pulse on channel `ch`, the baseline table
entry for `ch` is unchanged by the scan. -/
theorem blTableGo_noHead (bs : ℕ) :
    ∀ (l : List Record) (table : List ℤ) (ch : ℕ),
      (∀ k, k < l.length → (l.getD k dfltRec).channel = ch →
        (l.getD k dfltRec).record_i ≠ 0) →
      (blTableGo bs table l).getD ch 0 = table.getD ch 0 := by
  intro l
  induction l with
  | nil => intro table ch _; simp [blTableGo]
  | cons d rest ih =>
    intro table ch hno
    simp only [blTableGo]
    rw [ih (blUpd bs table d) ch]
    · unfold blUpd
      split
      · rename_i h0
        have hch : d.channel ≠ ch := by
          intro hc
          exact hno 0 (by simp) (by simpa using hc) (by simpa using h0)
        rw [getD_set]
        simp [hch]
      · rfl
    · intro k hk hc hr
      exact hno (k + 1) (by simpa using hk) (by simpa using hc) (by simpa using hr)

/-- If `j` is the position of the last pulse start on channel `ch` within `l`,
then after scanning `l` the baseline table holds the `int16`-stored mean of
that record's first `bs` samples. -/
theorem blTableGo_head (bs : ℕ) :
    ∀ (l : List Record) (table : List ℤ) (ch j : ℕ),
      j < l.length → ch < table.length →
      (l.getD j dfltRec).channel = ch →
      (l.getD j dfltRec).record_i = 0 →
      (∀ k, j < k → k < l.length → (l.getD k dfltRec).channel = ch →
        (l.getD k dfltRec).record_i ≠ 0) →
      (blTableGo bs table l).getD ch 0 =
        wrap16 (truncQ (meanQ ((l.getD j dfltRec).data.take bs))) := by
  intro l
  induction l with
  | nil => intro table ch j hj; simp at hj
  | cons d rest ih =>
    intro table ch j hj hch hc h0 hno
    cases j with
    | zero =>
      simp only [List.getD_cons_zero] at hc h0 ⊢
      simp only [blTableGo]
      rw [blTableGo_noHead bs rest (blUpd bs table d) ch]
      · unfold blUpd
        rw [if_pos h0, hc, getD_set]
        simp [hch]
      · intro k hk hck hrk
        exact hno (k + 1) (by omega) (by simpa using hk) (by simpa using hck)
          (by simpa using hrk)
    | succ j =>
      simp only [List.getD_cons_succ] at hc h0 ⊢
      simp only [blTableGo]
      apply ih (blUpd bs table d) ch j (by simpa using hj) _ hc h0
      · intro k hk hlk hck hrk
        exact hno (k + 1) (by omega) (by simpa using hlk) (by simpa using hck)
          (by simpa using hrk)
      · unfold blUpd
        split <;> simpa using hch

/-- Unfolding of `baseline` at one position. -/
theorem baseline_getD (records : List Record) (bs i : ℕ)
    (hi : i < records.length) :
    (baseline records bs).getD i dfltRec =
      blOne (spr0 records) bs
        (blTableGo bs
          (List.replicate ((records.map Record.channel).foldr max 0 + 1) 0)
          (records.take i))
        (records.getD i dfltRec) := by
  cases records with
  | nil => simp at hi
  | cons r0 rs =>
    simp only [baseline, spr0, List.headD]
    exact baselineGo_getD _ _ _ _ _ hi

theorem blOne_baseline (spr bs : ℕ) (table : List ℤ) (d : Record) :
    (blOne spr bs table d).baseline =
      if d.record_i = 0 then meanQ (d.data.take bs)
      else ((table.getD d.channel 0 : ℤ) : ℚ) := rfl

/-- C1, head half: the first record of a pulse gets the mean of its first
`bs` raw samples as its `baseline` field. -/
theorem baseline_head_eq_mean (records : List Record) (bs j : ℕ)
    (hj : j < records.length)
    (h0 : (records.getD j dfltRec).record_i = 0) :
    ((baseline records bs).getD j dfltRec).baseline =
      meanQ ((records.getD j dfltRec).data.take bs) := by
  rw [baseline_getD records bs j hj, blOne_baseline, if_pos h0]

/-- C1, continuation half: a continuation record's `baseline` field is the
`int16`-stored (truncated, wrapped) mean of its pulse head, as read back from
the per-channel table. -/
theorem baseline_continuation_eq_stored (records : List Record) (bs i j : ℕ)
    (hi : i < records.length)
    (hhead : IsPulseHead records j i)
    (hcont : (records.getD i dfltRec).record_i ≠ 0) :
    ((baseline records bs).getD i dfltRec).baseline =
      ((wrap16 (truncQ (meanQ ((records.getD j dfltRec).data.take bs))) : ℤ) : ℚ) := by
  obtain ⟨hji, hch, h0, hno⟩ := hhead
  have hjlt : j < i := by
    rcases Nat.lt_or_ge j i with h | h
    · exact h
    · exfalso
      have : j = i := by omega
      subst this
      exact hcont h0
  rw [baseline_getD records bs i hi, blOne_baseline, if_neg hcont]
  congr 1
  have hlen : (records.take i).length = i := by
    simp [List.length_take]
    omega
  rw [blTableGo_head bs (records.take i) _ _ j]
  · rw [getD_take records i j dfltRec hjlt]
  · omega
  · have hmem : (records.getD i dfltRec).channel ∈ records.map Record.channel :=
      List.mem_map_of_mem Record.channel (getD_mem records i dfltRec hi)
    have := le_foldr_max (records.map Record.channel) _ hmem
    simp only [List.length_replicate]
    omega
  · rw [getD_take records i j dfltRec hjlt]; exact hch
  · rw [getD_take records i j dfltRec hjlt]; exact h0
  · intro k hjk hki hchk
    rw [getD_take records i k dfltRec (by omega)] at hchk ⊢
    exact hno k (by omega) hjk hchk

/-- C1 (amended): after `baseline(records, baseline_samples)` on a record
array satisfying the ordering invariant, the first record of each pulse has
`baseline` equal to the arithmetic mean of its first `baseline_samples` raw
samples, and every continuation record of the pulse has `baseline` equal to
that mean truncated toward zero and wrapped to `int16` (the value stored in
the per-channel `int16` table), not in general the identical value. -/
theorem baseline_pulse_head_and_continuation (records : List Record)
    (bs i j : ℕ)
    (_hord : orderedB records = true) (_hbs : 0 < bs)
    (hi : i < records.length)
    (hhead : IsPulseHead records j i)
    (hcont : (records.getD i dfltRec).record_i ≠ 0) :
    ((baseline records bs).getD j dfltRec).baseline =
      meanQ ((records.getD j dfltRec).data.take bs) ∧
    ((baseline records bs).getD i dfltRec).baseline =
      ((wrap16 (truncQ (((baseline records bs).getD j dfltRec).baseline)) : ℤ) : ℚ) := by
  have hj : j < records.length := lt_of_le_of_lt hhead.1 hi
  have h1 := baseline_head_eq_mean records bs j hj hhead.2.2.1
  refine ⟨h1, ?_⟩
  rw [h1]
  exact baseline_continuation_eq_stored records bs i j hi hhead hcont

/-- Two-record pulse on channel 0 whose head mean is the non-integer 1/2:
first record of the C1 counterexample. -/
def c1A : Record :=
  { channel := 0, time := 0, dt := 1, record_i := 0, pulse_length := 4,
    baseline := 0, area := 0, data := [0, 1] }

/-- Continuation record of the C1 counterexample. -/
def c1B : Record :=
  { channel := 0, time := 2, dt := 1, record_i := 1, pulse_length := 4,
    baseline := 0, area := 0, data := [3, 4] }

/-- C1 counterexample: on an ordered array whose pulse head has mean 1/2, the
continuation record's `baseline` (0, the `int16`-truncated mean) is NOT
identical to the first record's `baseline` (1/2), refuting the claim as
stated. -/
theorem baseline_continuation_differs_from_head :
    orderedB [c1A, c1B] = true ∧
    ((baseline [c1A, c1B] 2).getD 0 dfltRec).baseline =
      meanQ (c1A.data.take 2) ∧
    ((baseline [c1A, c1B] 2).getD 0 dfltRec).baseline = 1 / 2 ∧
    ((baseline [c1A, c1B] 2).getD 1 dfltRec).baseline = 0 ∧
    ((baseline [c1A, c1B] 2).getD 1 dfltRec).baseline ≠
      ((baseline [c1A, c1B] 2).getD 0 dfltRec).baseline := by
  refine ⟨by decide, ?_, ?_, ?_, ?_⟩ <;>
    norm_num [baseline, baselineGo, blOne, blUpd, blTableGo, meanQ, truncQ,
      wrap16, npSliceLen, c1A, c1B]

/-- Witness for the amended C1 theorem at a concrete ordered two-record
pulse. -/
theorem baseline_pulse_head_and_continuation_witness :
    orderedB [c1A, c1B] = true ∧ 0 < 2 ∧ 1 < ([c1A, c1B]).length ∧
    IsPulseHead [c1A, c1B] 0 1 ∧
    (([c1A, c1B]).getD 1 dfltRec).record_i ≠ 0 ∧
    (((baseline [c1A, c1B] 2).getD 0 dfltRec).baseline =
      meanQ ((([c1A, c1B]).getD 0 dfltRec).data.take 2) ∧
    ((baseline [c1A, c1B] 2).getD 1 dfltRec).baseline =
      ((wrap16 (truncQ (((baseline [c1A, c1B] 2).getD 0 dfltRec).baseline)) : ℤ) : ℚ)) :=
  ⟨by decide, by decide, by decide, by decide, by decide,
    baseline_pulse_head_and_continuation [c1A, c1B] 2 1 0 (by decide)
      (by decide) (by decide) (by decide) (by decide)⟩

theorem WFB_spec (records : List Record) (hwf : WFB records = true) :
    ∀ r ∈ records, r.data.length = spr0 records ∧
      r.record_i * spr0 records < r.pulse_length := by
  intro r hr
  have h := List.all_eq_true.mp hwf r hr
  simpa using h

/-- C4: after `baseline` on a well-formed ordered record array, each sample at
index `m` below `min(samples_per_record, pulse_length - record_i *
samples_per_record)` becomes `truncate_to_integer(baseline) - original`, and
each sample at or beyond that bound is unchanged. -/
theorem baseline_sample_rewrite (records : List Record) (bs i m : ℕ)
    (_hord : orderedB records = true)
    (hwf : WFB records = true)
    (hi : i < records.length) :
    (m < min (spr0 records)
        ((records.getD i dfltRec).pulse_length -
          (records.getD i dfltRec).record_i * spr0 records) →
      ((baseline records bs).getD i dfltRec).data.getD m 0 =
        truncQ (((baseline records bs).getD i dfltRec).baseline) -
          (records.getD i dfltRec).data.getD m 0) ∧
    (min (spr0 records)
        ((records.getD i dfltRec).pulse_length -
          (records.getD i dfltRec).record_i * spr0 records) ≤ m →
      ((baseline records bs).getD i dfltRec).data.getD m 0 =
        (records.getD i dfltRec).data.getD m 0) := by
  obtain ⟨hlen, hpl⟩ :=
    WFB_spec records hwf (records.getD i dfltRec) (getD_mem records i dfltRec hi)
  rw [baseline_getD records bs i hi]
  simp only [blOne]
  have hstop :
      npSliceLen (records.getD i dfltRec).data.length
        (min ((spr0 records : ℕ) : ℤ)
          (((records.getD i dfltRec).pulse_length : ℤ) -
            ((records.getD i dfltRec).record_i : ℤ) * ((spr0 records : ℕ) : ℤ))) =
      min (spr0 records)
        ((records.getD i dfltRec).pulse_length -
          (records.getD i dfltRec).record_i * spr0 records) := by
    unfold npSliceLen
    rw [if_neg]
    · omega
    · omega
  rw [hstop]
  rw [getD_take_map_append _ _ _ m (by omega)]
  constructor
  · intro hm
    rw [if_pos hm]
  · intro hm
    rw [if_neg (by omega)]

/-- Record used by the C4 witness: one-record pulse with one padding
sample. -/
def c4A : Record :=
  { channel := 0, time := 0, dt := 1, record_i := 0, pulse_length := 3,
    baseline := 0, area := 0, data := [1, 2, 0, 0] }

/-- Witness for C4 at a concrete well-formed record array. -/
theorem baseline_sample_rewrite_witness :
    orderedB [c4A] = true ∧ WFB [c4A] = true ∧ 0 < ([c4A]).length ∧
    ((1 < min (spr0 [c4A])
        ((([c4A]).getD 0 dfltRec).pulse_length -
          (([c4A]).getD 0 dfltRec).record_i * spr0 [c4A]) →
      ((baseline [c4A] 2).getD 0 dfltRec).data.getD 1 0 =
        truncQ (((baseline [c4A] 2).getD 0 dfltRec).baseline) -
          (([c4A]).getD 0 dfltRec).data.getD 1 0) ∧
    (min (spr0 [c4A])
        ((([c4A]).getD 0 dfltRec).pulse_length -
          (([c4A]).getD 0 dfltRec).record_i * spr0 [c4A]) ≤ 1 →
      ((baseline [c4A] 2).getD 0 dfltRec).data.getD 1 0 =
        (([c4A]).getD 0 dfltRec).data.getD 1 0)) :=
  ⟨by decide, by decide, by decide,
    baseline_sample_rewrite [c4A] 2 0 1 (by decide) (by decide) (by decide)⟩

theorem baseline_length (records : List Record) (bs : ℕ) :
    (baseline records bs).length = records.length := by
  cases records with
  | nil => rfl
  | cons r0 rs =>
    simp only [baseline]
    exact baselineGo_length _ _ _ _

/-- If record `m` of the remaining input is a continuation on a channel `chT`
that has no entry in `seen` and no record before `m`, the linkage scan trips
the assert and yields `none`. -/
theorem linksGo_none (chT : ℕ) :
    ∀ (rest : List Record) (m i0 : ℕ) (prev next seen : List ℤ),
      m < rest.length →
      seen.getD chT NOT_APPLICABLE = NOT_APPLICABLE →
      (rest.getD m dfltRec).channel = chT →
      (rest.getD m dfltRec).record_i ≠ 0 →
      (∀ k, k < m → (rest.getD k dfltRec).channel ≠ chT) →
      linksGo rest i0 prev next seen = none := by
  intro rest
  induction rest with
  | nil => intro m i0 prev next seen hm; simp at hm
  | cons r rest ih =>
    intro m i0 prev next seen hm hseen hch hr hno
    cases m with
    | zero =>
      simp only [List.getD_cons_zero] at hch hr
      simp only [linksGo, if_neg hr]
      rw [hch, hseen]
      simp
    | succ m =>
      simp only [List.getD_cons_succ] at hch hr
      have hch0 : r.channel ≠ chT := hno 0 (by omega)
      have hseen1 : ∀ z : ℤ,
          (seen.set r.channel z).getD chT NOT_APPLICABLE = NOT_APPLICABLE := by
        intro z
        rw [getD_set]
        rw [if_neg]
        · exact hseen
        · intro hc
          exact absurd hc.1 hch0
      have hno1 : ∀ k, k < m → (rest.getD k dfltRec).channel ≠ chT := by
        intro k hk
        have := hno (k + 1) (by omega)
        simpa using this
      simp only [linksGo]
      split
      · exact ih m (i0 + 1) _ _ _ (by simpa using hm) (hseen1 _) hch hr hno1
      · split
        · rfl
        · exact ih m (i0 + 1) _ _ _ (by simpa using hm) (hseen1 _) hch hr hno1

/-- C3 (corrected): a continuation record whose channel has no prior record
makes `record_links` fail its assert, but `baseline` does NOT fail: it
completes normally and silently gives that record the zero-initialized table
value 0 as its baseline. -/
theorem precondition_violation_links_assert_baseline_silent
    (records : List Record) (bs i : ℕ)
    (hi : i < records.length)
    (hcont : (records.getD i dfltRec).record_i ≠ 0)
    (hnoprior : ∀ j, j < i →
      (records.getD j dfltRec).channel ≠ (records.getD i dfltRec).channel) :
    record_links records = none ∧
    (baseline records bs).length = records.length ∧
    ((baseline records bs).getD i dfltRec).baseline = 0 := by
  refine ⟨?_, baseline_length records bs, ?_⟩
  · cases records with
    | nil => simp at hi
    | cons r0 rs =>
      simp only [record_links]
      exact linksGo_none _ _ i 0 _ _ _ hi (getD_replicate _ _ _) rfl hcont
        (fun k hk => hnoprior k hk)
  · rw [baseline_getD records bs i hi, blOne_baseline, if_neg hcont]
    rw [blTableGo_noHead]
    · rw [getD_replicate]
      simp
    · intro k hk hch
      exfalso
      have hki : k < i := by
        have := List.length_take i records
        omega
      rw [getD_take records i k dfltRec hki] at hch
      exact hnoprior k hki hch

/-- An orphan continuation record (record_i = 1, no prior record on its
channel), used by the C3 counterexample and witness. -/
def c3R : Record :=
  { channel := 0, time := 0, dt := 1, record_i := 1, pulse_length := 8,
    baseline := 0, area := 0, data := [5, 6, 7, 8] }

/-- C3 counterexample: on an orphan continuation record, `record_links` fails
(assert), but `baseline` does not fail as the claim states: it completes and
produces a definite output (baseline 0, samples inverted against baseline
0). -/
theorem baseline_does_not_fail_on_orphan_continuation :
    record_links [c3R] = none ∧
    baseline [c3R] 2 =
      [{ channel := 0, time := 0, dt := 1, record_i := 1, pulse_length := 8,
         baseline := 0, area := 0, data := [-5, -6, -7, -8] }] := by
  constructor
  · decide
  · norm_num [baseline, baselineGo, blOne, blUpd, meanQ, truncQ, wrap16,
      npSliceLen, c3R]
    decide

/-- Witness for the amended C3 theorem on the orphan continuation record. -/
theorem precondition_violation_witness :
    0 < ([c3R]).length ∧ (([c3R]).getD 0 dfltRec).record_i ≠ 0 ∧
    (∀ j, j < 0 →
      (([c3R]).getD j dfltRec).channel ≠ (([c3R]).getD 0 dfltRec).channel) ∧
    (record_links [c3R] = none ∧
     (baseline [c3R] 2).length = ([c3R]).length ∧
     ((baseline [c3R] 2).getD 0 dfltRec).baseline = 0) :=
  ⟨by decide, by decide, by omega,
    precondition_violation_links_assert_baseline_silent [c3R] 2 0 (by decide)
      (by decide) (by omega)⟩

/-- C2 (evidence of the divergence): on the empty record array, `baseline`,
`integrate` and `find_hits` are no-ops as the spec says, but `record_links`
fails — `records['channel'].max()` raises on a zero-size array — instead of
returning two empty index arrays. -/
theorem empty_input_behavior :
    (∀ bs, baseline [] bs = []) ∧
    integrate [] = [] ∧
    (∀ t cap, find_hits [] t cap = []) ∧
    (∀ t, findHitsAll [] t = []) ∧
    record_links [] = none :=
  ⟨fun _ => rfl, rfl, fun _ _ => rfl, fun _ => rfl, rfl⟩

/-- The record of the C5 example: baseline-corrected samples
`[0,20,20,0,30,0]`. -/
def c5R : Record :=
  { channel := 0, time := 10, dt := 2, record_i := 0, pulse_length := 6,
    baseline := 0, area := 0, data := [0, 20, 20, 0, 30, 0] }

/-- C5: on samples `[0,20,20,0,30,0]` with threshold 15, `find_hits` emits
exactly two hits, `left=1, right=3, length=3` then `left=4, right=5,
length=2`, each with `length = right - left + 1`. -/
theorem find_hits_example_two_hits :
    findHitsAll [c5R] 15 =
      [{ left := 1, right := 3, time := 12, length := 3, dt := 2,
         channel := 0, record_i := 0 },
       { left := 4, right := 5, time := 18, length := 2, dt := 2,
         channel := 0, record_i := 0 }] ∧
    (3 : ℤ) = 3 - 1 + 1 ∧ (2 : ℤ) = 5 - 4 + 1 := by decide

/-- Invariant of the `find_hits` inner loop: every emitted pair
`(left, right)` has `0 ≤ left ≤ right`, `right` is an in-range sample index,
and the sample at `right` is at or below threshold (the run was closed by a
below-threshold sample; the `i == samples_per_record` disjunct never fires
because `i` stays below `spr`). -/
theorem scanGo_spec (spr : ℕ) (t : ℤ) :
    ∀ (data : List ℤ) (i : ℕ) (inI : Bool) (hs : ℤ),
      i + data.length = spr →
      (inI = true → 0 ≤ hs ∧ hs ≤ (i : ℤ)) →
      ∀ lr ∈ scanGo spr t data i inI hs,
        0 ≤ lr.1 ∧ lr.1 ≤ lr.2 ∧
        ∃ m : ℕ, lr.2 = ((i + m : ℕ) : ℤ) ∧ m < data.length ∧
          data.getD m 0 ≤ t := by
  intro data
  induction data with
  | nil =>
    intro i inI hs _ _ lr hmem
    simp [scanGo] at hmem
  | cons s rest ih =>
    intro i inI hs hlen hinv lr hmem
    have hine : decide (i = spr) = false := by
      simp only [decide_eq_false_iff_not]
      simp only [List.length_cons] at hlen
      omega
    simp only [scanGo, hine] at hmem
    have hlen1 : (i + 1) + rest.length = spr := by
      simp only [List.length_cons] at hlen
      omega
    have hlift : ∀ lr : ℤ × ℤ,
        (0 ≤ lr.1 ∧ lr.1 ≤ lr.2 ∧ ∃ m, lr.2 = ((i + 1 + m : ℕ) : ℤ) ∧
          m < rest.length ∧ rest.getD m 0 ≤ t) →
        0 ≤ lr.1 ∧ lr.1 ≤ lr.2 ∧ ∃ m, lr.2 = ((i + m : ℕ) : ℤ) ∧
          m < (s :: rest).length ∧ (s :: rest).getD m 0 ≤ t := by
      rintro lr ⟨h1, h2, m, hm1, hm2, hm3⟩
      refine ⟨h1, h2, m + 1, ?_, by simp; omega, by simpa using hm3⟩
      rw [hm1]
      congr 1
      omega
    by_cases ha : t < s
    · have ha' : decide (t < s) = true := by simpa using ha
      rw [ha'] at hmem
      cases inI with
      | false =>
        simp at hmem
        exact hlift lr (ih (i + 1) true (i : ℤ) hlen1
          (fun _ => ⟨by omega, by omega⟩) lr hmem)
      | true =>
        simp at hmem
        exact hlift lr (ih (i + 1) true hs hlen1
          (fun _ => ⟨(hinv rfl).1, by have := (hinv rfl).2; omega⟩) lr hmem)
    · have ha' : decide (t < s) = false := by simpa using ha
      rw [ha'] at hmem
      cases inI with
      | false =>
        simp at hmem
        exact hlift lr (ih (i + 1) false hs hlen1 (by simp) lr hmem)
      | true =>
        simp at hmem
        rcases hmem with heq | hmem
        · subst heq
          obtain ⟨hh1, hh2⟩ := hinv rfl
          refine ⟨hh1, by simpa using hh2, 0, by simp, by simp, ?_⟩
          simpa using le_of_not_lt ha
        · exact hlift lr (ih (i + 1) false hs hlen1 (by simp) lr hmem)

theorem recordHits_mem (spr : ℕ) (t : ℤ) (ri : ℕ) (r : Record) (h : Hit)
    (hmem : h ∈ recordHits spr t ri r) :
    ∃ lr ∈ scanGo spr t r.data 0 false (-1), h = mkHit r ri lr := by
  obtain ⟨lr, hlr, heq⟩ := List.mem_map.mp hmem
  exact ⟨lr, hlr, heq.symm⟩

theorem findHitsGo_mem (spr : ℕ) (t : ℤ) :
    ∀ (recs : List Record) (ri : ℕ) (h : Hit), h ∈ findHitsGo spr t ri recs →
      ∃ k, k < recs.length ∧ h ∈ recordHits spr t (ri + k) (recs.getD k dfltRec) := by
  intro recs
  induction recs with
  | nil => intro ri h hmem; simp [findHitsGo] at hmem
  | cons r rest ih =>
    intro ri h hmem
    rcases List.mem_append.mp hmem with hl | hr
    · exact ⟨0, by simp, by simpa using hl⟩
    · obtain ⟨k, hk, hmem'⟩ := ih (ri + 1) h hr
      refine ⟨k + 1, by simpa using hk, ?_⟩
      have : ri + 1 + k = ri + (k + 1) := by omega
      rw [this] at hmem'
      simpa using hmem'

theorem findHitsAll_mem (records : List Record) (t : ℤ) (h : Hit)
    (hmem : h ∈ findHitsAll records t) :
    ∃ k, k < records.length ∧
      h ∈ recordHits (spr0 records) t k (records.getD k dfltRec) := by
  cases records with
  | nil => simp [findHitsAll] at hmem
  | cons r0 rs =>
    obtain ⟨k, hk, hmem'⟩ := findHitsGo_mem _ t (r0 :: rs) 0 h hmem
    exact ⟨k, hk, by simpa using hmem'⟩

/-- C6: every hit emitted by `find_hits` lies fully inside its record
(`0 ≤ left ≤ right < samples_per_record`) and was closed by a sample at or
below threshold, so a maximal above-threshold run extending through the
record's final sample produces no hit: for any suffix run `[s, spr)` strictly
above threshold, no hit reaches index `s` or beyond. -/
theorem find_hits_no_trailing_run_hit (records : List Record) (t : ℤ) (h : Hit)
    (hwf : ∀ r ∈ records, r.data.length = spr0 records)
    (hmem : h ∈ findHitsAll records t) :
    0 ≤ h.left ∧ h.left ≤ h.right ∧ h.right < (spr0 records : ℤ) ∧
    (records.getD h.record_i dfltRec).data.getD h.right.toNat 0 ≤ t ∧
    ∀ s : ℕ,
      (∀ m : ℕ, s ≤ m → m < spr0 records →
        t < (records.getD h.record_i dfltRec).data.getD m 0) →
      h.right < (s : ℤ) := by
  obtain ⟨k, hk, hmem'⟩ := findHitsAll_mem records t h hmem
  obtain ⟨lr, hlr, heq⟩ := recordHits_mem _ t k _ h hmem'
  have hdlen : (records.getD k dfltRec).data.length = spr0 records :=
    hwf _ (getD_mem records k dfltRec hk)
  obtain ⟨h1, h2, m, hm1, hm2, hm3⟩ :=
    scanGo_spec (spr0 records) t (records.getD k dfltRec).data 0 false (-1)
      (by omega) (by simp) lr hlr
  subst heq
  have hri : (mkHit (records.getD k dfltRec) k lr).record_i = k := rfl
  have hleft : (mkHit (records.getD k dfltRec) k lr).left = lr.1 := rfl
  have hright : (mkHit (records.getD k dfltRec) k lr).right = lr.2 := rfl
  rw [hri, hleft, hright]
  simp only [Nat.zero_add] at hm1
  refine ⟨h1, h2, by omega, ?_, ?_⟩
  · rw [hm1]
    simpa using hm3
  · intro s hs
    by_contra hlt
    have hsm : s ≤ m := by omega
    exact absurd (hs m hsm (by omega)) (not_lt.mpr hm3)

/-- Record for the C6 witness: one closed run and one trailing run
(`[0,20,0,30]`, threshold 15) — only the closed run yields a hit. -/
def c6R : Record :=
  { channel := 1, time := 0, dt := 1, record_i := 0, pulse_length := 4,
    baseline := 0, area := 0, data := [0, 20, 0, 30] }

/-- The single hit found in `c6R`. -/
def c6H : Hit :=
  { left := 1, right := 2, time := 1, length := 2, dt := 1, channel := 1,
    record_i := 0 }

/-- Witness for C6: the trailing run `[30]` of `c6R` produces no hit; its one
emitted hit satisfies the closed-run properties. -/
theorem find_hits_no_trailing_run_hit_witness :
    (∀ r ∈ [c6R], r.data.length = spr0 [c6R]) ∧
    c6H ∈ findHitsAll [c6R] 15 ∧
    findHitsAll [c6R] 15 = [c6H] ∧
    (0 ≤ c6H.left ∧ c6H.left ≤ c6H.right ∧ c6H.right < (spr0 [c6R] : ℤ) ∧
     (([c6R]).getD c6H.record_i dfltRec).data.getD c6H.right.toNat 0 ≤ 15 ∧
     ∀ s : ℕ,
       (∀ m : ℕ, s ≤ m → m < spr0 [c6R] →
         15 < (([c6R]).getD c6H.record_i dfltRec).data.getD m 0) →
       c6H.right < (s : ℤ)) :=
  ⟨by decide, by decide, by decide,
    find_hits_no_trailing_run_hit [c6R] 15 c6H (by decide) (by decide)⟩

/-- C9: every hit emitted by `find_hits(records, threshold)` takes its fields
from the record at its positional index in the passed-in array:
`time = record.time + left * record.dt`, `dt` and `channel` are copied, and
`record_i` is that positional index (so the index is into the records array,
not the record's own `record_i` field). -/
theorem find_hits_field_provenance (records : List Record) (t : ℤ) (h : Hit)
    (hmem : h ∈ findHitsAll records t) :
    ∃ k, k < records.length ∧
      h ∈ recordHits (spr0 records) t k (records.getD k dfltRec) ∧
      h.record_i = k ∧
      h.time = (records.getD k dfltRec).time +
        h.left * (records.getD k dfltRec).dt ∧
      h.dt = (records.getD k dfltRec).dt ∧
      h.channel = (records.getD k dfltRec).channel := by
  obtain ⟨k, hk, hmem'⟩ := findHitsAll_mem records t h hmem
  refine ⟨k, hk, hmem', ?_⟩
  obtain ⟨lr, hlr, heq⟩ := recordHits_mem _ t k _ h hmem'
  subst heq
  exact ⟨rfl, rfl, rfl, rfl⟩

/-- Records for the C9 witness: the second record has `record_i = 7`, yet the
hit found in it reports positional index 1. -/
def c9A : Record :=
  { channel := 2, time := 50, dt := 4, record_i := 0, pulse_length := 4,
    baseline := 0, area := 0, data := [0, 0, 0, 0] }

/-- Second C9 witness record (its own `record_i` field is 7, not 1). -/
def c9B : Record :=
  { channel := 2, time := 100, dt := 5, record_i := 7, pulse_length := 4,
    baseline := 0, area := 0, data := [0, 20, 0, 0] }

/-- The hit found in `c9B`: positional `record_i = 1`, despite
`c9B.record_i = 7`. -/
def c9H : Hit :=
  { left := 1, right := 2, time := 105, length := 2, dt := 5, channel := 2,
    record_i := 1 }

/-- Witness for C9 at a concrete two-record array. -/
theorem find_hits_field_provenance_witness :
    c9H ∈ findHitsAll [c9A, c9B] 15 ∧
    findHitsAll [c9A, c9B] 15 = [c9H] ∧
    c9H.record_i = 1 ∧ c9B.record_i = 7 ∧
    (∃ k, k < ([c9A, c9B]).length ∧
      c9H ∈ recordHits (spr0 [c9A, c9B]) 15 k (([c9A, c9B]).getD k dfltRec) ∧
      c9H.record_i = k ∧
      c9H.time = (([c9A, c9B]).getD k dfltRec).time +
        c9H.left * (([c9A, c9B]).getD k dfltRec).dt ∧
      c9H.dt = (([c9A, c9B]).getD k dfltRec).dt ∧
      c9H.channel = (([c9A, c9B]).getD k dfltRec).channel) :=
  ⟨by decide, by decide, by decide, by decide,
    find_hits_field_provenance [c9A, c9B] 15 c9H (by decide)⟩

theorem NA_eq : NOT_APPLICABLE = -1 := rfl

theorem getD_set_self {α : Type _} (l : List α) (i : ℕ) (v d : α)
    (h : i < l.length) : (l.set i v).getD i d = v := by
  rw [getD_set]
  exact if_pos ⟨rfl, h⟩

theorem getD_set_ne {α : Type _} (l : List α) (i k : ℕ) (v d : α)
    (h : i ≠ k) : (l.set i v).getD k d = l.getD k d := by
  rw [getD_set]
  exact if_neg (fun hc => h hc.1)

/-- Invariant of the `record_links` scan: if the scan completes, every
non-sentinel `next` entry points at a valid index whose `prev` entry points
back, and a `prev` entry is the sentinel exactly for pulse-starting records. -/
theorem linksGo_spec (all : List Record) :
    ∀ (rest : List Record) (i0 : ℕ) (prev next seen prev2 next2 : List ℤ),
      (∀ m, m < rest.length → rest.getD m dfltRec = all.getD (i0 + m) dfltRec) →
      i0 + rest.length = all.length →
      prev.length = all.length →
      next.length = all.length →
      (∀ k, i0 ≤ k → prev.getD k (-1) = -1) →
      (∀ k : ℕ, next.getD k (-1) ≠ -1 →
        ∃ j : ℕ, next.getD k (-1) = (j : ℤ) ∧ j < i0 ∧
          prev.getD j (-1) = (k : ℤ)) →
      (∀ ch : ℕ, seen.getD ch (-1) ≠ -1 →
        ∃ j : ℕ, seen.getD ch (-1) = (j : ℤ) ∧ j < i0) →
      (∀ k, k < i0 →
        (prev.getD k (-1) = -1 ↔ (all.getD k dfltRec).record_i = 0)) →
      linksGo rest i0 prev next seen = some (prev2, next2) →
      (∀ k : ℕ, next2.getD k (-1) ≠ -1 →
        ∃ j : ℕ, next2.getD k (-1) = (j : ℤ) ∧ j < all.length ∧
          prev2.getD j (-1) = (k : ℤ)) ∧
      (∀ k, k < all.length →
        (prev2.getD k (-1) = -1 ↔ (all.getD k dfltRec).record_i = 0)) := by
  intro rest
  induction rest with
  | nil =>
    intro i0 prev next seen prev2 next2 _ hN _ _ _ H3 _ H5 hrun
    simp only [linksGo, Option.some.injEq, Prod.mk.injEq] at hrun
    obtain ⟨hp, hn⟩ := hrun
    subst hp; subst hn
    simp only [List.length_nil, Nat.add_zero] at hN
    constructor
    · intro k hk
      obtain ⟨j, h1, h2, h3⟩ := H3 k hk
      exact ⟨j, h1, by omega, h3⟩
    · intro k hk
      exact H5 k (by omega)
  | cons r rest ih =>
    intro i0 prev next seen prev2 next2 hrest hN hpl hnl H2 H3 H4 H5 hrun
    have hi0 : i0 < all.length := by
      simp only [List.length_cons] at hN
      omega
    have hr : r = all.getD i0 dfltRec := by
      have := hrest 0 (by simp)
      simpa using this
    have hrest1 : ∀ m, m < rest.length →
        rest.getD m dfltRec = all.getD (i0 + 1 + m) dfltRec := by
      intro m hm
      have := hrest (m + 1) (by simpa using hm)
      simp only [List.getD_cons_succ] at this
      rw [this]
      congr 1
      omega
    have hN1 : (i0 + 1) + rest.length = all.length := by
      simp only [List.length_cons] at hN
      omega
    simp only [linksGo, NA_eq] at hrun
    by_cases h0 : r.record_i = 0
    · rw [if_pos h0] at hrun
      refine ih (i0 + 1) _ _ _ prev2 next2 hrest1 hN1 (by simpa using hpl)
        hnl ?_ ?_ ?_ ?_ hrun
      · intro k hk
        rw [getD_set_ne prev i0 k _ _ (by omega)]
        exact H2 k (by omega)
      · intro k hk
        obtain ⟨j, h1, h2, h3⟩ := H3 k hk
        refine ⟨j, h1, by omega, ?_⟩
        rw [getD_set_ne prev i0 j _ _ (by omega)]
        exact h3
      · intro ch hch
        rw [getD_set] at hch ⊢
        split at hch
        · exact ⟨i0, by rw [if_pos (by assumption)], by omega⟩
        · rw [if_neg (by assumption)]
          obtain ⟨j, h1, h2⟩ := H4 ch hch
          exact ⟨j, h1, by omega⟩
      · intro k hk
        rcases Nat.lt_or_ge k i0 with hki | hki
        · rw [getD_set_ne prev i0 k _ _ (by omega)]
          exact H5 k hki
        · have hk0 : k = i0 := by omega
          subst hk0
          rw [getD_set_self prev k _ _ (by omega)]
          rw [← hr]
          simp [h0]
    · rw [if_neg h0] at hrun
      by_cases hlast : seen.getD r.channel (-1) = -1
      · rw [if_pos hlast] at hrun
        exact absurd hrun (by simp)
      · rw [if_neg hlast] at hrun
        obtain ⟨j, hj1, hj2⟩ := H4 r.channel hlast
        rw [hj1] at hrun
        have htn : ((j : ℤ)).toNat = j := Int.toNat_natCast j
        rw [htn] at hrun
        refine ih (i0 + 1) _ _ _ prev2 next2 hrest1 hN1 (by simpa using hpl)
          (by simpa using hnl) ?_ ?_ ?_ ?_ hrun
        · intro k hk
          rw [getD_set_ne prev i0 k _ _ (by omega)]
          exact H2 k (by omega)
        · intro k hk
          rw [getD_set] at hk ⊢
          split at hk
          · rename_i hc
            refine ⟨i0, by rw [if_pos hc], by omega, ?_⟩
            rw [getD_set_self prev i0 _ _ (by omega)]
            rw [hc.1]
          · rw [if_neg (by assumption)]
            obtain ⟨j', h1, h2, h3⟩ := H3 k hk
            refine ⟨j', h1, by omega, ?_⟩
            rw [getD_set_ne prev i0 j' _ _ (by omega)]
            exact h3
        · intro ch hch
          rw [getD_set] at hch ⊢
          split at hch
          · exact ⟨i0, by rw [if_pos (by assumption)], by omega⟩
          · rw [if_neg (by assumption)]
            obtain ⟨j', h1, h2⟩ := H4 ch hch
            exact ⟨j', h1, by omega⟩
        · intro k hk
          rcases Nat.lt_or_ge k i0 with hki | hki
          · rw [getD_set_ne prev i0 k _ _ (by omega)]
            exact H5 k hki
          · have hk0 : k = i0 := by omega
            subst hk0
            rw [getD_set_self prev k _ _ (by omega)]
            rw [← hr]
            constructor
            · intro hc
              exfalso
              omega
            · intro hc
              exact absurd hc h0

/-- C7: on an ordered record array, when `record_links` returns
`(previous_record, next_record)`, every non-sentinel `next_record[i]` is a
valid index with `previous_record[next_record[i]] = i`, and
`previous_record[i] = NOT_APPLICABLE` exactly when record `i` has
`record_i = 0`. -/
theorem record_links_prev_next (records : List Record) (prev next : List ℤ)
    (_hord : orderedB records = true)
    (hlink : record_links records = some (prev, next)) :
    (∀ k : ℕ, next.getD k NOT_APPLICABLE ≠ NOT_APPLICABLE →
      ∃ j : ℕ, next.getD k NOT_APPLICABLE = (j : ℤ) ∧ j < records.length ∧
        prev.getD j NOT_APPLICABLE = (k : ℤ)) ∧
    (∀ k, k < records.length →
      (prev.getD k NOT_APPLICABLE = NOT_APPLICABLE ↔
        (records.getD k dfltRec).record_i = 0)) := by
  rw [NA_eq]
  cases records with
  | nil => exact absurd hlink (by simp [record_links])
  | cons r0 rs =>
    simp only [record_links, NA_eq] at hlink
    refine linksGo_spec (r0 :: rs) (r0 :: rs) 0 _ _ _ prev next
      (fun m _ => by rw [Nat.zero_add]) (by omega)
      (List.length_replicate _ _) (List.length_replicate _ _)
      (fun k _ => getD_replicate _ _ _) ?_ ?_ (by omega) hlink
    · intro k hk
      exact absurd (getD_replicate _ _ _) hk
    · intro ch hch
      exact absurd (getD_replicate _ _ _) hch

/-- C7 witness records: a two-fragment pulse on channel 0. -/
def c7A : Record :=
  { channel := 0, time := 0, dt := 1, record_i := 0, pulse_length := 4,
    baseline := 0, area := 0, data := [1, 2] }

/-- Second C7 witness record. -/
def c7B : Record :=
  { channel := 0, time := 2, dt := 1, record_i := 1, pulse_length := 4,
    baseline := 0, area := 0, data := [3, 4] }

/-- Witness for C7 at a concrete ordered two-record pulse. -/
theorem record_links_prev_next_witness :
    orderedB [c7A, c7B] = true ∧
    record_links [c7A, c7B] = some ([-1, 0], [1, -1]) ∧
    ((∀ k : ℕ, ([1, -1] : List ℤ).getD k NOT_APPLICABLE ≠ NOT_APPLICABLE →
      ∃ j : ℕ, ([1, -1] : List ℤ).getD k NOT_APPLICABLE = (j : ℤ) ∧
        j < ([c7A, c7B]).length ∧
        ([-1, 0] : List ℤ).getD j NOT_APPLICABLE = (k : ℤ)) ∧
    (∀ k, k < ([c7A, c7B]).length →
      (([-1, 0] : List ℤ).getD k NOT_APPLICABLE = NOT_APPLICABLE ↔
        (([c7A, c7B]).getD k dfltRec).record_i = 0))) :=
  ⟨by decide, by decide,
    record_links_prev_next [c7A, c7B] [-1, 0] [1, -1] (by decide) (by decide)⟩

theorem chunkLoop_ne_nil (cap : ℕ) :
    ∀ (hits buf : List Hit), chunkLoop cap buf hits ≠ [] := by
  intro hits
  induction hits with
  | nil => intro buf; simp [chunkLoop]
  | cons h rest ih =>
    intro buf
    simp only [chunkLoop]
    split
    · simp
    · exact ih _

/-- Everything appended to the chunk buffer is eventually flushed: the
concatenation of all chunks is the full hit sequence. -/
theorem chunkLoop_flatten (cap : ℕ) :
    ∀ (hits buf : List Hit), buf.length < cap →
      (chunkLoop cap buf hits).flatten = buf ++ hits := by
  intro hits
  induction hits with
  | nil => intro buf _; simp [chunkLoop]
  | cons h rest ih =>
    intro buf hbuf
    simp only [chunkLoop]
    split
    · rename_i hfull
      simp only [List.flatten_cons]
      rw [ih [] (by simp only [List.length_nil]; omega)]
      simp
    · rename_i hfull
      have hl : (buf ++ [h]).length = buf.length + 1 := by simp
      rw [ih (buf ++ [h]) (by omega)]
      simp

theorem getLast?_cons_of_ne_nil {α : Type _} (a : α) (l : List α)
    (h : l ≠ []) : (a :: l).getLast? = l.getLast? := by
  cases l with
  | nil => exact absurd rfl h
  | cons b t => exact List.getLast?_cons_cons

/-- The final flushed chunk has length `total % cap`: the hits accumulated
since the last full chunk, possibly zero. -/
theorem chunkLoop_last_length (cap : ℕ) :
    ∀ (hits buf : List Hit), buf.length < cap →
      ((chunkLoop cap buf hits).getLast?.getD []).length =
        (buf.length + hits.length) % cap := by
  intro hits
  induction hits with
  | nil =>
    intro buf hbuf
    simp [chunkLoop, Nat.mod_eq_of_lt hbuf]
  | cons h rest ih =>
    intro buf hbuf
    simp only [chunkLoop]
    split
    · rename_i hfull
      rw [getLast?_cons_of_ne_nil _ _ (chunkLoop_ne_nil cap rest [])]
      rw [ih [] (by simp only [List.length_nil]; omega)]
      have hb1 : buf.length + 1 = cap := by simpa using hfull
      have h2 : buf.length + (h :: rest).length = rest.length + cap := by
        simp only [List.length_cons]
        omega
      rw [h2, Nat.add_mod_right]
      simp
    · rename_i hfull
      have hl : (buf ++ [h]).length = buf.length + 1 := by simp
      rw [ih (buf ++ [h]) (by omega)]
      congr 1
      simp only [List.length_append, List.length_cons, List.length_nil]
      omega

/-- C10: for every non-empty record array the chunk sequence ends with one
final flush: there is at least one chunk, their concatenation is the full hit
sequence, and the last chunk holds exactly `total % cap` hits — a zero-length
trailing chunk whenever the total is zero or a multiple of the capacity. -/
theorem find_hits_final_flush (records : List Record) (t : ℤ) (cap : ℕ)
    (hcap : 0 < cap) (hne : records ≠ []) :
    find_hits records t cap ≠ [] ∧
    (find_hits records t cap).flatten = findHitsAll records t ∧
    ((find_hits records t cap).getLast?.getD []).length =
      (findHitsAll records t).length % cap := by
  have hfh : find_hits records t cap =
      chunkLoop cap [] (findHitsAll records t) := by
    cases records with
    | nil => exact absurd rfl hne
    | cons r0 rs => rfl
  rw [hfh]
  refine ⟨chunkLoop_ne_nil cap _ [], ?_, ?_⟩
  · rw [chunkLoop_flatten cap _ [] (by simp only [List.length_nil]; omega)]
    simp
  · rw [chunkLoop_last_length cap _ [] (by simp only [List.length_nil]; omega)]
    simp

/-- Record with no above-threshold samples, for the C10 witness: zero hits
still produce one (empty) trailing flush. -/
def c10R : Record :=
  { channel := 0, time := 0, dt := 1, record_i := 0, pulse_length := 2,
    baseline := 0, area := 0, data := [0, 0] }

/-- Witness for C10: one record, zero hits, capacity 3 — the output is a
single zero-length chunk. -/
theorem find_hits_final_flush_witness :
    0 < 3 ∧ ([c10R] : List Record) ≠ [] ∧
    find_hits [c10R] 15 3 = [[]] ∧
    (find_hits [c10R] 15 3 ≠ [] ∧
     (find_hits [c10R] 15 3).flatten = findHitsAll [c10R] 15 ∧
     ((find_hits [c10R] 15 3).getLast?.getD []).length =
       (findHitsAll [c10R] 15).length % 3) :=
  ⟨by decide, by decide, by decide,
    find_hits_final_flush [c10R] 15 3 (by decide) (by decide)⟩

/-- C8: a `find_hits` call with chunk capacity 3 over an input producing 7
hits delivers chunks of lengths 3, 3, 1 in order, and their concatenation is
the hit sequence an unchunked scan would produce. -/
theorem find_hits_chunks_3_of_7 (records : List Record) (t : ℤ)
    (hne : records ≠ [])
    (h7 : (findHitsAll records t).length = 7) :
    (find_hits records t 3).map List.length = [3, 3, 1] ∧
    (find_hits records t 3).flatten = findHitsAll records t := by
  have hfh : find_hits records t 3 =
      chunkLoop 3 [] (findHitsAll records t) := by
    cases records with
    | nil => exact absurd rfl hne
    | cons r0 rs => rfl
  rw [hfh]
  obtain ⟨l, hl⟩ : ∃ l, findHitsAll records t = l := ⟨_, rfl⟩
  rw [hl] at h7 ⊢
  rcases l with _ | ⟨a, l⟩
  · simp only [List.length_nil] at h7
    omega
  rcases l with _ | ⟨b, l⟩
  · simp only [List.length_cons, List.length_nil] at h7
    omega
  rcases l with _ | ⟨c, l⟩
  · simp only [List.length_cons, List.length_nil] at h7
    omega
  rcases l with _ | ⟨d, l⟩
  · simp only [List.length_cons, List.length_nil] at h7
    omega
  rcases l with _ | ⟨e, l⟩
  · simp only [List.length_cons, List.length_nil] at h7
    omega
  rcases l with _ | ⟨f, l⟩
  · simp only [List.length_cons, List.length_nil] at h7
    omega
  rcases l with _ | ⟨g, l⟩
  · simp only [List.length_cons, List.length_nil] at h7
    omega
  rcases l with _ | ⟨x, l⟩
  · exact ⟨rfl, rfl⟩
  · simp only [List.length_cons] at h7
    omega

/-- Record producing exactly 7 hits (threshold 15), for the C8 witness. -/
def c8R : Record :=
  { channel := 0, time := 0, dt := 1, record_i := 0, pulse_length := 14,
    baseline := 0, area := 0,
    data := [20, 0, 20, 0, 20, 0, 20, 0, 20, 0, 20, 0, 20, 0] }

/-- Witness for C8: 7 hits, capacity 3, chunk lengths 3, 3, 1. -/
theorem find_hits_chunks_3_of_7_witness :
    ([c8R] : List Record) ≠ [] ∧ (findHitsAll [c8R] 15).length = 7 ∧
    ((find_hits [c8R] 15 3).map List.length = [3, 3, 1] ∧
     (find_hits [c8R] 15 3).flatten = findHitsAll [c8R] 15) :=
  ⟨by decide, by decide,
    find_hits_chunks_3_of_7 [c8R] 15 (by decide) (by decide)⟩
